import Mathlib

/-!
Verification of the Fourier epicycle core (`src/main.rs`).

The program animates closed 2D paths as sums of rotating vectors obtained
from a naive discrete Fourier transform.  We embed the numeric core
shallowly: `f32` arithmetic is idealized as real arithmetic (`ℝ`), the
`i32` frequency as `ℤ`, `Vec` as `List`, and Rust's stable `sort_by` /
`sort_by_key` as `List.mergeSort` with the corresponding total order.
Rendering side effects (`draw_vectors`, `draw_path`) are embedded as the
lists of geometric primitives they emit.
-/

namespace Fourier

noncomputable section

open Real

/-- 2D point (raylib `Vector2`), idealized over `ℝ`. -/
structure Vector2 where
  x : ℝ
  y : ℝ

/-- RGBA color (raylib `Color`); only carried through, never computed with. -/
structure Color where
  r : ℕ
  g : ℕ
  b : ℕ
  a : ℕ

/-- The program's own complex-number struct (`struct Complex { re: f32, im: f32 }`). -/
structure Complex where
  re : ℝ
  im : ℝ

/-- `Complex::magnitude`: `(re*re + im*im).sqrt()`. -/
def Complex.magnitude (z : Complex) : ℝ :=
  Real.sqrt (z.re * z.re + z.im * z.im)

/-- `Complex::rotate`: 2D rotation by `angle` radians. -/
def Complex.rotate (z : Complex) (angle : ℝ) : Complex :=
  ⟨z.re * Real.cos angle - z.im * Real.sin angle,
   z.re * Real.sin angle + z.im * Real.cos angle⟩

/-- `Complex::add`: component-wise sum. -/
def Complex.add (z other : Complex) : Complex :=
  ⟨z.re + other.re, z.im + other.im⟩

/-- `Complex::scale`: component-wise scaling. -/
def Complex.scale (z : Complex) (scalar : ℝ) : Complex :=
  ⟨z.re * scalar, z.im * scalar⟩

/-- `Complex::multiply`: the standard complex product. -/
def Complex.multiply (z other : Complex) : Complex :=
  ⟨z.re * other.re - z.im * other.im, z.re * other.im + z.im * other.re⟩

/-- `struct FourierComponent { freq: i32, coef: Complex }`. -/
structure FourierComponent where
  freq : ℤ
  coef : Complex

/-- `struct PathFourier`. -/
structure PathFourier where
  components : List FourierComponent
  center : Vector2
  color : Color
  path : List Vector2

/-- The body of the `for k in 0..n` loop of `compute_complex_dft`: the inner
accumulation over `signal.iter().enumerate()`, the `1/n` scaling, and the
frequency folding `freq = if k <= n/2 { k } else { k - n }`. -/
def dftComponent (signal : List Complex) (k : ℕ) : FourierComponent :=
  let n := signal.length
  let sum := signal.enum.foldl (fun (sum : Complex) (iv : ℕ × Complex) =>
    let angle : ℝ := -2 * π * (k : ℝ) * (iv.1 : ℝ) / (n : ℝ)
    let exp_term : Complex := ⟨Real.cos angle, Real.sin angle⟩
    sum.add (exp_term.multiply iv.2)) ⟨0, 0⟩
  { freq := if k ≤ n / 2 then (k : ℤ) else (k : ℤ) - (n : ℤ)
    coef := sum.scale (1 / (n : ℝ)) }

/-- `compute_complex_dft`: all `n` components, stably sorted by descending
coefficient magnitude, truncated to `num_components`, then stably re-sorted
by ascending frequency.  Rust's `sort_by`/`sort_by_key` are stable sorts,
embedded as `List.mergeSort` over the same total order. -/
def compute_complex_dft (signal : List Complex) (num_components : ℕ) :
    List FourierComponent :=
  if signal.length = 0 then []
  else
    ((((List.range signal.length).map (dftComponent signal)).mergeSort
          (fun a b => decide (b.coef.magnitude ≤ a.coef.magnitude))).take
        num_components).mergeSort
      (fun a b => decide (a.freq ≤ b.freq))

/-- `PathFourier::new`: centroid subtraction then DFT; empty input short-circuits. -/
def PathFourier.new (path_points : List Vector2) (center : Vector2) (color : Color)
    (num_components : ℕ) : PathFourier :=
  if path_points.isEmpty then
    { components := [], center := center, color := color, path := [] }
  else
    let path_center_x := (path_points.map Vector2.x).sum / (path_points.length : ℝ)
    let path_center_y := (path_points.map Vector2.y).sum / (path_points.length : ℝ)
    let complex_signal : List Complex :=
      path_points.map fun p => ⟨p.x - path_center_x, p.y - path_center_y⟩
    { components := compute_complex_dft complex_signal num_components
      center := center, color := color, path := [] }

/-- `PathFourier::evaluate`: sum of the rotated coefficients, translated by `center`. -/
def PathFourier.evaluate (self : PathFourier) (time : ℝ) : Vector2 :=
  let sum := self.components.foldl (fun (sum : Complex) comp =>
    sum.add (comp.coef.rotate (2 * π * (comp.freq : ℝ) * time))) ⟨0, 0⟩
  ⟨self.center.x + sum.re, self.center.y + sum.im⟩

/-- `PathFourier::update_path`: `insert(0, point)` then `pop()` once the length
exceeds `max_path_length`.  The trail is embedded as the `path` list itself. -/
def update_path (path : List Vector2) (point : Vector2) (max_path_length : ℕ) :
    List Vector2 :=
  let inserted := point :: path
  if max_path_length < inserted.length then inserted.dropLast else inserted

/-- `PathFourier::draw_vectors`, embedded as the list of `(prev_pos, current_pos)`
line segments it draws, in emission order (the epicycle chain). -/
def draw_vectors (self : PathFourier) (time : ℝ) : List (Vector2 × Vector2) :=
  (self.components.foldl (fun acc comp =>
      let prev := acc.1
      let current := prev.add (comp.coef.rotate (2 * π * (comp.freq : ℝ) * time))
      let prev_pos : Vector2 := ⟨self.center.x + prev.re, self.center.y + prev.im⟩
      let current_pos : Vector2 := ⟨self.center.x + current.re, self.center.y + current.im⟩
      (current, acc.2 ++ [(prev_pos, current_pos)]))
    ((⟨0, 0⟩ : Complex), ([] : List (Vector2 × Vector2)))).2

/-- `PathFourier::draw_path`, embedded as the list of
`(path[i-1], path[i], alpha)` segments for `i in 1..len`,
`len = path.len().min(2000)`, with the pre-cast opacity
`alpha = (1 - i/len) * 255` idealized over `ℝ`. -/
def draw_path (self : PathFourier) : List (Vector2 × Vector2 × ℝ) :=
  if self.path.length < 2 then []
  else
    let len := min self.path.length 2000
    (List.range' 1 (len - 1)).map fun i =>
      (self.path.getD (i - 1) ⟨0, 0⟩, self.path.getD i ⟨0, 0⟩,
        (1 - (i : ℝ) / (len : ℝ)) * 255)

/-- Modelled from the spec: `atan2(y, x)` with range `(-π, π]`; the `Complex`
impl in `src/main.rs` documents a `phase` operation in its header comment but
contains no body for it, so the spec's description is the authority. -/
def atan2 (y x : ℝ) : ℝ :=
  if 0 < x then Real.arctan (y / x)
  else if x < 0 then
    (if 0 ≤ y then Real.arctan (y / x) + π else Real.arctan (y / x) - π)
  else (if 0 < y then π / 2 else if y < 0 then -(π / 2) else 0)

/-- Modelled from the spec: `phase() -> scalar`: `atan2(im, re)`. -/
def Complex.phase (z : Complex) : ℝ := atan2 z.im z.re

/-- Spec-side coefficient, following §4.2 step 2 of the spec verbatim:
`coefficient_k = (1/n) · Σ_{i=0}^{n-1} signal[i] · e^{−2πi·k·i/n}`. -/
def specCoefficient (signal : List Complex) (k : ℕ) : Complex :=
  (((List.range signal.length).map fun i =>
      (signal.getD i ⟨0, 0⟩).multiply
        ⟨Real.cos (-2 * π * (k : ℝ) * (i : ℝ) / (signal.length : ℝ)),
         Real.sin (-2 * π * (k : ℝ) * (i : ℝ) / (signal.length : ℝ))⟩).foldl
    Complex.add ⟨0, 0⟩).scale (1 / (signal.length : ℝ))

/-- Spec-side frequency folding, §4.2 step 3: `freq = k` if `k ≤ n/2`
(integer division), else `k − n`. -/
def specFreq (n k : ℕ) : ℤ :=
  if k ≤ n / 2 then (k : ℤ) else (k : ℤ) - (n : ℤ)

/-- Spec-side component `(freq, coefficient)` for index `k`. -/
def specComponent (signal : List Complex) (k : ℕ) : FourierComponent :=
  { freq := specFreq signal.length k, coef := specCoefficient signal k }

/-- Iterating `update_path` over a list of points, from an empty trail. -/
def runTrail (points : List Vector2) (max_path_length : ℕ) : List Vector2 :=
  points.foldl (fun path p => update_path path p max_path_length) []

/-- Interpretation of the program's complex struct in Mathlib's `ℂ`. -/
def toC (z : Complex) : ℂ := ⟨z.re, z.im⟩

/-- The reconstruction sum of a component list at time `t`, expressed in `ℂ`. -/
def evalC (comps : List FourierComponent) (t : ℝ) : ℂ :=
  (comps.map fun c =>
    toC c.coef * Complex.exp ((2 * π * (c.freq : ℝ) * t : ℝ) * Complex.I)).sum

theorem toC_injective : Function.Injective toC := by
  intro a b h
  cases a
  cases b
  simpa [toC, Complex.ext_iff] using h

theorem toC_zero : toC ⟨0, 0⟩ = 0 := by
  simp [toC, Complex.ext_iff]

theorem toC_add (a b : Complex) : toC (a.add b) = toC a + toC b := by
  simp [toC, Fourier.Complex.add, Complex.ext_iff]

theorem toC_scale (z : Complex) (s : ℝ) : toC (z.scale s) = toC z * (s : ℂ) := by
  simp only [toC, Fourier.Complex.scale, Complex.ext_iff, Complex.mul_re, Complex.mul_im,
    Complex.ofReal_re, Complex.ofReal_im]
  constructor <;> ring_nf

theorem toC_multiply (z w : Complex) : toC (z.multiply w) = toC z * toC w := by
  simp only [toC, Fourier.Complex.multiply, Complex.ext_iff, Complex.mul_re, Complex.mul_im]
  constructor <;> ring_nf

theorem toC_cis (θ : ℝ) :
    toC ⟨Real.cos θ, Real.sin θ⟩ = Complex.exp ((θ : ℂ) * Complex.I) := by
  rw [Complex.exp_mul_I, ← Complex.ofReal_cos, ← Complex.ofReal_sin]
  simp [toC, Complex.ext_iff, Complex.cos_ofReal_re, Complex.sin_ofReal_re]

theorem rotate_eq_multiply (z : Complex) (θ : ℝ) :
    z.rotate θ = z.multiply ⟨Real.cos θ, Real.sin θ⟩ := rfl

theorem toC_rotate (z : Complex) (θ : ℝ) :
    toC (z.rotate θ) = toC z * Complex.exp ((θ : ℂ) * Complex.I) := by
  rw [rotate_eq_multiply, toC_multiply, toC_cis]

theorem foldl_add_toC {α : Type*} (l : List α) (f : α → Complex) (z : Complex) :
    toC (l.foldl (fun acc x => acc.add (f x)) z)
      = toC z + (l.map fun x => toC (f x)).sum := by
  induction l generalizing z with
  | nil => simp
  | cons a l ih =>
    rw [List.foldl_cons, ih, toC_add, List.map_cons, List.sum_cons]
    ring

theorem list_map_range_sum {β : Type*} [AddCommMonoid β] (f : ℕ → β) (n : ℕ) :
    ((List.range n).map f).sum = ∑ i ∈ Finset.range n, f i := by
  induction n with
  | zero => simp
  | succ n ih =>
    rw [List.range_succ, List.map_append, List.sum_append, Finset.sum_range_succ, ih]
    simp

theorem enumFrom_map_getD {α β : Type*} (l : List α) (d : α) (g : ℕ → α → β) :
    ∀ j : ℕ, (List.enumFrom j l).map (fun iv => g iv.1 iv.2)
      = (List.range l.length).map fun i => g (j + i) (l.getD i d) := by
  induction l with
  | nil => simp
  | cons a l ih =>
    intro j
    rw [List.enumFrom_cons, List.map_cons, List.length_cons, List.range_succ_eq_map,
      List.map_cons, List.map_map, ih (j + 1)]
    refine congrArg₂ _ (by simp) ?_
    refine List.map_congr_left fun i hi => ?_
    have h1 : j + 1 + i = j + (i + 1) := by omega
    simp [Function.comp, h1]

theorem enum_map_getD {α β : Type*} (l : List α) (d : α) (g : ℕ → α → β) :
    l.enum.map (fun iv => g iv.1 iv.2)
      = (List.range l.length).map fun i => g i (l.getD i d) := by
  have h := enumFrom_map_getD l d g 0
  simpa using h

theorem compute_complex_dft_zero (signal : List Complex) :
    compute_complex_dft signal 0 = [] := by
  unfold compute_complex_dft
  split <;> simp

theorem evaluate_nil_components (center : Vector2) (color : Color) (path : List Vector2)
    (t : ℝ) : PathFourier.evaluate ⟨[], center, color, path⟩ t = center := by
  cases center
  simp [PathFourier.evaluate]

theorem new_nil (center : Vector2) (color : Color) (m : ℕ) :
    PathFourier.new [] center color m = ⟨[], center, color, []⟩ := by
  simp [PathFourier.new]

theorem new_zero_components (pts : List Vector2) (center : Vector2) (color : Color) :
    PathFourier.new pts center color 0 = ⟨[], center, color, []⟩ := by
  unfold PathFourier.new
  split
  · rfl
  · simp [compute_complex_dft_zero]

/-- C6: a reconstruction built from an empty path has an empty component list and
evaluates to the center offset at every time; a reconstruction built with
component count zero likewise; both are ordinary values, no error is signaled. -/
theorem claim_C6_degenerate (pts : List Vector2) (center : Vector2) (color : Color)
    (m : ℕ) (t : ℝ) :
    (PathFourier.new [] center color m).components = []
    ∧ (PathFourier.new [] center color m).evaluate t = center
    ∧ (PathFourier.new pts center color 0).components = []
    ∧ (PathFourier.new pts center color 0).evaluate t = center := by
  rw [new_nil, new_zero_components]
  exact ⟨rfl, evaluate_nil_components center color [] t, rfl,
    evaluate_nil_components center color [] t⟩

/-- C7: the reconstruction is periodic with period 1 in the time parameter:
since every stored frequency is an integer, `evaluate` at `t + 1` equals
`evaluate` at `t` (exactly, over idealized real arithmetic). -/
theorem claim_C7_periodicity (pf : PathFourier) (t : ℝ) :
    pf.evaluate (t + 1) = pf.evaluate t := by
  have hstep :
      (fun (sum : Complex) (comp : FourierComponent) =>
          sum.add (comp.coef.rotate (2 * π * (comp.freq : ℝ) * (t + 1))))
        = fun (sum : Complex) (comp : FourierComponent) =>
          sum.add (comp.coef.rotate (2 * π * (comp.freq : ℝ) * t)) := by
    funext s comp
    have hc : 2 * π * (comp.freq : ℝ) * (t + 1)
        = 2 * π * (comp.freq : ℝ) * t + (comp.freq : ℝ) * (2 * π) := by ring
    simp only [Fourier.Complex.rotate, hc, Real.cos_add_int_mul_two_pi,
      Real.sin_add_int_mul_two_pi]
  simp only [PathFourier.evaluate, hstep]

theorem draw_aux (t cx cy : ℝ) (comps : List FourierComponent) :
    ∀ (z : Complex) (l : List (Vector2 × Vector2)) (d : Vector2 × Vector2),
      (l.getLastD d).2 = ⟨cx + z.re, cy + z.im⟩ →
      (((comps.foldl (fun (acc : Complex × List (Vector2 × Vector2))
            (comp : FourierComponent) =>
          ((acc.1.add (comp.coef.rotate (2 * π * (comp.freq : ℝ) * t))),
           acc.2 ++ [((⟨cx + acc.1.re, cy + acc.1.im⟩ : Vector2),
            (⟨cx + (acc.1.add (comp.coef.rotate (2 * π * (comp.freq : ℝ) * t))).re,
              cy + (acc.1.add (comp.coef.rotate (2 * π * (comp.freq : ℝ) * t))).im⟩ :
              Vector2))]))
          (z, l)).2).getLastD d).2
        = ⟨cx + (comps.foldl (fun (s : Complex) (comp : FourierComponent) =>
              s.add (comp.coef.rotate (2 * π * (comp.freq : ℝ) * t))) z).re,
           cy + (comps.foldl (fun (s : Complex) (comp : FourierComponent) =>
              s.add (comp.coef.rotate (2 * π * (comp.freq : ℝ) * t))) z).im⟩ := by
  induction comps with
  | nil =>
    intro z l d hbase
    simpa using hbase
  | cons c comps ih =>
    intro z l d hbase
    rw [List.foldl_cons, List.foldl_cons]
    exact ih _ _ d (by rw [List.getLastD_concat])

/-- C3: the end point of the last segment of the epicycle chain drawn by
`draw_vectors` equals the point returned by `evaluate` for the same components
and time (taking the center point itself for an empty chain). -/
theorem claim_C3_chain_consistency (pf : PathFourier) (t : ℝ) :
    ((draw_vectors pf t).getLastD
        ((⟨pf.center.x, pf.center.y⟩ : Vector2), (⟨pf.center.x, pf.center.y⟩ : Vector2))).2
      = pf.evaluate t := by
  exact draw_aux t pf.center.x pf.center.y pf.components ⟨0, 0⟩ []
    ((⟨pf.center.x, pf.center.y⟩ : Vector2), (⟨pf.center.x, pf.center.y⟩ : Vector2))
    (by simp)

theorem update_path_length_le (path : List Vector2) (p : Vector2) (max : ℕ)
    (h : path.length ≤ max) : (update_path path p max).length ≤ max := by
  show (if max < (p :: path).length then (p :: path).dropLast else p :: path).length ≤ max
  split
  · simp only [List.length_dropLast, List.length_cons]
    omega
  · rename_i hc
    simp only [List.length_cons] at hc ⊢
    omega

theorem foldl_update_length_le (max : ℕ) :
    ∀ (ps path : List Vector2), path.length ≤ max →
      (ps.foldl (fun path p => update_path path p max) path).length ≤ max := by
  intro ps
  induction ps with
  | nil => intro path h; simpa using h
  | cons q ps ih =>
    intro path h
    rw [List.foldl_cons]
    exact ih _ (update_path_length_le path q max h)

theorem update_path_head (path : List Vector2) (p : Vector2) (max : ℕ) (h : 1 ≤ max) :
    (update_path path p max).head? = some p := by
  show (if max < (p :: path).length then (p :: path).dropLast else p :: path).head? = some p
  split
  · rename_i hc
    cases path with
    | nil => simp only [List.length_cons, List.length_nil] at hc; omega
    | cons q path => rw [List.dropLast_cons₂, List.head?_cons]
  · rw [List.head?_cons]

/-- C5 (amended): with a fixed `max_length ≥ 1`, after any sequence of
`update_path` calls starting from the empty trail the trail length never
exceeds `max_length`, the next inserted point becomes the head of the trail,
and each call prepends the point, additionally dropping the oldest (last)
entry exactly when the length would exceed `max_length`.  (At `max_length = 0`
the inserted point is evicted immediately, so the head clause needs
`1 ≤ max_length`.) -/
theorem claim_C5_trail_bound (max : ℕ) (ps : List Vector2) (p : Vector2)
    (h : 1 ≤ max) :
    (runTrail ps max).length ≤ max
    ∧ (update_path (runTrail ps max) p max).head? = some p
    ∧ (max < (runTrail ps max).length + 1 →
        update_path (runTrail ps max) p max = (p :: runTrail ps max).dropLast)
    ∧ ((runTrail ps max).length + 1 ≤ max →
        update_path (runTrail ps max) p max = p :: runTrail ps max) := by
  refine ⟨foldl_update_length_le max ps [] (by simp), update_path_head _ _ _ h, ?_, ?_⟩
  · intro hlt
    show (if max < (p :: runTrail ps max).length then (p :: runTrail ps max).dropLast
        else p :: runTrail ps max) = (p :: runTrail ps max).dropLast
    rw [if_pos (by simp only [List.length_cons]; omega)]
  · intro hle
    show (if max < (p :: runTrail ps max).length then (p :: runTrail ps max).dropLast
        else p :: runTrail ps max) = p :: runTrail ps max
    rw [if_neg (by simp only [List.length_cons]; omega)]

/-- C5 witness: the amended claim instantiated at `max_length = 2`, one prior
insertion, and a fresh point. -/
theorem claim_C5_trail_bound_witness :
    1 ≤ 2
    ∧ ((runTrail [⟨5, 6⟩] 2).length ≤ 2
      ∧ (update_path (runTrail [⟨5, 6⟩] 2) (⟨1, 2⟩ : Vector2) 2).head? = some ⟨1, 2⟩
      ∧ (2 < (runTrail [⟨5, 6⟩] 2).length + 1 →
          update_path (runTrail [⟨5, 6⟩] 2) ⟨1, 2⟩ 2 = (⟨1, 2⟩ :: runTrail [⟨5, 6⟩] 2).dropLast)
      ∧ ((runTrail [⟨5, 6⟩] 2).length + 1 ≤ 2 →
          update_path (runTrail [⟨5, 6⟩] 2) ⟨1, 2⟩ 2 = ⟨1, 2⟩ :: runTrail [⟨5, 6⟩] 2)) :=
  ⟨by norm_num, claim_C5_trail_bound 2 [⟨5, 6⟩] ⟨1, 2⟩ (by norm_num)⟩

/-- C5 counterexample: the claim as stated fails at `max_length = 0`: after a
call on the empty trail the just-inserted point is not the first element of
the trail (the trail is empty, since the insertion is immediately evicted). -/
theorem claim_C5_counterexample :
    (update_path (runTrail [] 0) (⟨0, 0⟩ : Vector2) 0).head? ≠ some (⟨0, 0⟩ : Vector2) := by
  simp [runTrail, update_path]

theorem draw_path_eq (pf : PathFourier) (h : 2 ≤ pf.path.length) :
    draw_path pf = (List.range' 1 (min pf.path.length 2000 - 1)).map fun i =>
      (pf.path.getD (i - 1) ⟨0, 0⟩, pf.path.getD i ⟨0, 0⟩,
        (1 - (i : ℝ) / ((min pf.path.length 2000 : ℕ) : ℝ)) * 255) := by
  unfold draw_path
  rw [if_neg (by omega)]

/-- C9 (amended): a trail with fewer than 2 points renders no segments;
otherwise, with effective length `len = min (trail length) 2000`, `draw_path`
renders one segment per adjacent pair among the first `len` points (`len - 1`
segments), pair `j` joining `path[j]` to `path[j+1]` with opacity
`(1 - (j+1)/len) * 255`; the opacity decreases strictly and linearly with the
pair index, is maximal at the most recent pair (value `(1 - 1/len) * 255`,
not the full `255`), and equals `255/len` at the oldest rendered pair. -/
theorem claim_C9_trail_fade (pf : PathFourier) :
    (pf.path.length < 2 → draw_path pf = [])
    ∧ (2 ≤ pf.path.length →
        (draw_path pf).length = min pf.path.length 2000 - 1
        ∧ (∀ j, j < min pf.path.length 2000 - 1 →
            (draw_path pf).getD j ((⟨0, 0⟩ : Vector2), (⟨0, 0⟩ : Vector2), (0 : ℝ))
              = (pf.path.getD j ⟨0, 0⟩, pf.path.getD (j + 1) ⟨0, 0⟩,
                 (1 - ((j : ℝ) + 1) / ((min pf.path.length 2000 : ℕ) : ℝ)) * 255))
        ∧ (∀ j, j + 1 < min pf.path.length 2000 - 1 →
            ((draw_path pf).getD (j + 1)
                ((⟨0, 0⟩ : Vector2), (⟨0, 0⟩ : Vector2), (0 : ℝ))).2.2
              < ((draw_path pf).getD j
                  ((⟨0, 0⟩ : Vector2), (⟨0, 0⟩ : Vector2), (0 : ℝ))).2.2)
        ∧ ((draw_path pf).getD (min pf.path.length 2000 - 2)
              ((⟨0, 0⟩ : Vector2), (⟨0, 0⟩ : Vector2), (0 : ℝ))).2.2
            = 255 / ((min pf.path.length 2000 : ℕ) : ℝ)) := by
  constructor
  · intro hshort
    unfold draw_path
    rw [if_pos hshort]
  · intro h
    have hlen2 : 2 ≤ min pf.path.length 2000 := le_min h (by norm_num)
    have hlen0 : (0 : ℝ) < ((min pf.path.length 2000 : ℕ) : ℝ) := by
      have : 0 < min pf.path.length 2000 := by omega
      exact_mod_cast this
    have hgetD : ∀ j, j < min pf.path.length 2000 - 1 →
        (draw_path pf).getD j ((⟨0, 0⟩ : Vector2), (⟨0, 0⟩ : Vector2), (0 : ℝ))
          = (pf.path.getD j ⟨0, 0⟩, pf.path.getD (j + 1) ⟨0, 0⟩,
             (1 - ((j : ℝ) + 1) / ((min pf.path.length 2000 : ℕ) : ℝ)) * 255) := by
      intro j hj
      rw [draw_path_eq pf h]
      rw [List.getD_eq_getElem _ _ (by simpa [List.length_range'] using hj)]
      rw [List.getElem_map, List.getElem_range']
      have e1 : 1 + 1 * j - 1 = j := by omega
      have e2 : 1 + 1 * j = j + 1 := by omega
      rw [e1, e2]
      push_cast
      ring_nf
    refine ⟨?_, hgetD, ?_, ?_⟩
    · rw [draw_path_eq pf h]
      simp [List.length_range']
    · intro j hj
      rw [hgetD j (by omega), hgetD (j + 1) hj]
      dsimp only
      have hj2 : (((j + 1 : ℕ)) : ℝ) = (j : ℝ) + 1 := by push_cast; ring
      rw [hj2]
      have hdiv : ((j : ℝ) + 1) / ((min pf.path.length 2000 : ℕ) : ℝ)
          < ((j : ℝ) + 1 + 1) / ((min pf.path.length 2000 : ℕ) : ℝ) :=
        div_lt_div_of_pos_right (by linarith) hlen0
      linarith
    · rw [hgetD (min pf.path.length 2000 - 2) (by omega)]
      dsimp only
      rw [Nat.cast_sub hlen2]
      have hL : ((min pf.path.length 2000 : ℕ) : ℝ) ≠ 0 := ne_of_gt hlen0
      field_simp
      ring

/-- C9 witness: the amended claim applied to a concrete 3-point trail, with
the `2 ≤ length` hypothesis discharged there. -/
theorem claim_C9_trail_fade_witness :
    2 ≤ ([⟨0, 0⟩, ⟨1, 0⟩, ⟨2, 0⟩] : List Vector2).length
    ∧ (draw_path ⟨[], ⟨0, 0⟩, ⟨0, 0, 0, 0⟩, [⟨0, 0⟩, ⟨1, 0⟩, ⟨2, 0⟩]⟩).length
        = min ([⟨0, 0⟩, ⟨1, 0⟩, ⟨2, 0⟩] : List Vector2).length 2000 - 1 :=
  ⟨by simp, ((claim_C9_trail_fade ⟨[], ⟨0, 0⟩, ⟨0, 0, 0, 0⟩,
      [⟨0, 0⟩, ⟨1, 0⟩, ⟨2, 0⟩]⟩).2 (by simp)).1⟩

/-- C9 counterexample: the claim as frozen says the most recent pair is drawn
at full opacity; on a 2-point trail the code gives it opacity
`(1 - 1/2) * 255 = 127.5`, not `255`. -/
theorem claim_C9_counterexample :
    ((draw_path ⟨[], ⟨0, 0⟩, ⟨0, 0, 0, 0⟩, [⟨0, 0⟩, ⟨1, 0⟩]⟩).getD 0
        ((⟨0, 0⟩ : Vector2), (⟨0, 0⟩ : Vector2), (0 : ℝ))).2.2 ≠ 255 := by
  have h : draw_path ⟨[], ⟨0, 0⟩, ⟨0, 0, 0, 0⟩, [⟨0, 0⟩, ⟨1, 0⟩]⟩
      = [((⟨0, 0⟩ : Vector2), (⟨1, 0⟩ : Vector2), (1 - (1 : ℝ) / 2) * 255)] := by
    unfold draw_path
    norm_num [List.range'_one]
  rw [h]
  norm_num

theorem atan2_mem_Ioc (y x : ℝ) : -π < atan2 y x ∧ atan2 y x ≤ π := by
  have hπ := Real.pi_pos
  have h1 := Real.arctan_lt_pi_div_two (y / x)
  have h2 := Real.neg_pi_div_two_lt_arctan (y / x)
  unfold atan2
  split
  · constructor <;> linarith
  · split
    · rename_i hx0 hxneg
      split
      · rename_i hy
        have hyx : y / x ≤ 0 := div_nonpos_of_nonneg_of_nonpos hy hxneg.le
        have ha : Real.arctan (y / x) ≤ Real.arctan 0 := Real.arctan_strictMono.monotone hyx
        rw [Real.arctan_zero] at ha
        constructor <;> linarith
      · rename_i hy
        push_neg at hy
        have hyx : 0 < y / x := div_pos_of_neg_of_neg hy hxneg
        have ha : Real.arctan 0 < Real.arctan (y / x) := Real.arctan_strictMono hyx
        rw [Real.arctan_zero] at ha
        constructor <;> linarith
    · split
      · constructor <;> linarith
      · split
        · constructor <;> linarith
        · constructor <;> linarith

/-- C8: the phase operation (modelled from the spec, since the `Complex` impl
only documents it) returns `atan2(im, re)`, whose value always lies in the
interval `(-π, π]`; at the origin it is the well-defined value `atan2 0 0 = 0`. -/
theorem claim_C8_phase_atan2 (z : Complex) :
    Complex.phase z = atan2 z.im z.re
    ∧ -π < Complex.phase z ∧ Complex.phase z ≤ π :=
  ⟨rfl, (atan2_mem_Ioc z.im z.re).1, (atan2_mem_Ioc z.im z.re).2⟩

theorem foldl_cadd_toC (l : List Complex) (z : Complex) :
    toC (l.foldl Complex.add z) = toC z + (l.map toC).sum := by
  induction l generalizing z with
  | nil => simp
  | cons a l ih =>
    rw [List.foldl_cons, ih, toC_add, List.map_cons, List.sum_cons]
    ring

theorem enum_map_getD_tuple {α β : Type*} (l : List α) (d : α) (g : ℕ × α → β) :
    l.enum.map g = (List.range l.length).map fun i => g (i, l.getD i d) := by
  have h := enumFrom_map_getD l d (fun i v => g (i, v)) 0
  simpa using h

theorem toC_dft_coef (signal : List Complex) (k : ℕ) :
    toC (dftComponent signal k).coef
      = (∑ i ∈ Finset.range signal.length,
          Complex.exp
              ((-2 * π * (k : ℝ) * (i : ℝ) / (signal.length : ℝ) : ℝ) * Complex.I)
            * toC (signal.getD i ⟨0, 0⟩)) * ((1 / (signal.length : ℝ) : ℝ) : ℂ) := by
  simp only [dftComponent]
  rw [toC_scale]
  congr 1
  rw [foldl_add_toC signal.enum
    (fun iv : ℕ × Complex =>
      Complex.multiply
        ⟨Real.cos (-2 * π * (k : ℝ) * (iv.1 : ℝ) / (signal.length : ℝ)),
         Real.sin (-2 * π * (k : ℝ) * (iv.1 : ℝ) / (signal.length : ℝ))⟩ iv.2) ⟨0, 0⟩]
  rw [toC_zero, zero_add]
  rw [enum_map_getD_tuple signal ⟨0, 0⟩]
  rw [list_map_range_sum]
  refine Finset.sum_congr rfl fun i _ => ?_
  rw [toC_multiply, toC_cis]

theorem toC_specCoefficient (signal : List Complex) (k : ℕ) :
    toC (specCoefficient signal k)
      = (∑ i ∈ Finset.range signal.length,
          Complex.exp
              ((-2 * π * (k : ℝ) * (i : ℝ) / (signal.length : ℝ) : ℝ) * Complex.I)
            * toC (signal.getD i ⟨0, 0⟩)) * ((1 / (signal.length : ℝ) : ℝ) : ℂ) := by
  simp only [specCoefficient]
  rw [toC_scale]
  congr 1
  rw [foldl_cadd_toC, toC_zero, zero_add, List.map_map]
  rw [list_map_range_sum]
  refine Finset.sum_congr rfl fun i _ => ?_
  simp only [Function.comp]
  rw [toC_multiply, toC_cis]
  ring

theorem dftComponent_eq_specComponent (signal : List Complex) (k : ℕ) :
    dftComponent signal k = specComponent signal k := by
  have hc : (dftComponent signal k).coef = (specComponent signal k).coef := by
    apply toC_injective
    rw [toC_dft_coef]
    rw [show (specComponent signal k).coef = specCoefficient signal k from rfl]
    rw [toC_specCoefficient]
  have hf : (dftComponent signal k).freq = (specComponent signal k).freq := rfl
  have h1 : dftComponent signal k
      = ⟨(dftComponent signal k).freq, (dftComponent signal k).coef⟩ := rfl
  rw [h1, hf, hc]

theorem leMag_trans (a b c : FourierComponent)
    (h1 : decide (b.coef.magnitude ≤ a.coef.magnitude) = true)
    (h2 : decide (c.coef.magnitude ≤ b.coef.magnitude) = true) :
    decide (c.coef.magnitude ≤ a.coef.magnitude) = true := by
  simp only [decide_eq_true_eq] at h1 h2 ⊢
  exact le_trans h2 h1

theorem leMag_total (a b : FourierComponent) :
    (decide (b.coef.magnitude ≤ a.coef.magnitude)
      || decide (a.coef.magnitude ≤ b.coef.magnitude)) = true := by
  simp only [Bool.or_eq_true, decide_eq_true_eq]
  exact le_total _ _

theorem leFreq_trans (a b c : FourierComponent)
    (h1 : decide (a.freq ≤ b.freq) = true) (h2 : decide (b.freq ≤ c.freq) = true) :
    decide (a.freq ≤ c.freq) = true := by
  simp only [decide_eq_true_eq] at h1 h2 ⊢
  exact le_trans h1 h2

theorem leFreq_total (a b : FourierComponent) :
    (decide (a.freq ≤ b.freq) || decide (b.freq ≤ a.freq)) = true := by
  simp only [Bool.or_eq_true, decide_eq_true_eq]
  exact le_total _ _

/-- C1: for a non-empty signal of length `n` and component budget `m`,
`compute_complex_dft` returns exactly `min n m` components; the full
(pre-truncation) component family is, up to permutation, the output together
with a set of dropped components each of whose coefficient magnitudes is
dominated by every kept one; each component is the spec's
`(folded frequency, (1/n)·Σ signal[i]·e^{−2πi·k·i/n})` for its index `k`; and
the output is ordered by ascending frequency. -/
theorem claim_C1_dft (signal : List Complex) (m : ℕ) (h : signal ≠ []) :
    (compute_complex_dft signal m).length = min signal.length m
    ∧ (∃ dropped : List FourierComponent,
        ((List.range signal.length).map (specComponent signal)).Perm
          (compute_complex_dft signal m ++ dropped)
        ∧ ∀ c ∈ compute_complex_dft signal m, ∀ d ∈ dropped,
            d.coef.magnitude ≤ c.coef.magnitude)
    ∧ List.Sorted (fun a b : FourierComponent => a.freq ≤ b.freq)
        (compute_complex_dft signal m) := by
  have hn : signal.length ≠ 0 := by
    intro h0
    exact h (List.length_eq_zero.mp h0)
  unfold compute_complex_dft
  rw [if_neg hn]
  set leM : FourierComponent → FourierComponent → Bool :=
    fun a b => decide (b.coef.magnitude ≤ a.coef.magnitude) with hleM
  set leF : FourierComponent → FourierComponent → Bool :=
    fun a b => decide (a.freq ≤ b.freq) with hleF
  set all := (List.range signal.length).map (dftComponent signal) with hall
  set sortedAll := all.mergeSort leM with hsa
  set trunc := sortedAll.take m with htr
  set out := trunc.mergeSort leF with hout
  have hlenAll : all.length = signal.length := by
    rw [hall, List.length_map, List.length_range]
  have hlenSA : sortedAll.length = signal.length := by
    rw [hsa, List.length_mergeSort, hlenAll]
  have hpermOut : out.Perm trunc := List.mergeSort_perm trunc leF
  have hpermSA : sortedAll.Perm all := List.mergeSort_perm all leM
  have hsplit : trunc ++ sortedAll.drop m = sortedAll := List.take_append_drop m sortedAll
  have hPairwiseM : List.Pairwise (fun a b => leM a b = true) sortedAll :=
    List.sorted_mergeSort leMag_trans leMag_total all
  refine ⟨?_, ⟨sortedAll.drop m, ?_, ?_⟩, ?_⟩
  · rw [hout, List.length_mergeSort, htr, List.length_take, hlenSA, Nat.min_comm]
  · have hspec : (List.range signal.length).map (specComponent signal) = all := by
      rw [hall]
      exact List.map_congr_left fun k _ => (dftComponent_eq_specComponent signal k).symm
    rw [hspec]
    have h2 : sortedAll.Perm (out ++ sortedAll.drop m) := by
      nth_rewrite 1 [← hsplit]
      exact List.Perm.append_right _ hpermOut.symm
    exact hpermSA.symm.trans h2
  · intro c hc d hd
    have hc2 : c ∈ trunc := hpermOut.mem_iff.mp hc
    have hp2 := hPairwiseM
    rw [← hsplit] at hp2
    have := (List.pairwise_append.mp hp2).2.2 c hc2 d hd
    simpa [hleM, decide_eq_true_eq] using this
  · have hs : List.Pairwise (fun a b => leF a b = true) (trunc.mergeSort leF) :=
      List.sorted_mergeSort leFreq_trans leFreq_total trunc
    rw [← hout] at hs
    exact hs.imp fun hab => by simpa [hleF, decide_eq_true_eq] using hab

/-- C1 witness: the claim applied at the one-element signal `[1]` with
`max_components = 1`. -/
theorem claim_C1_dft_witness :
    ([⟨1, 0⟩] : List Complex) ≠ []
    ∧ ((compute_complex_dft [⟨1, 0⟩] 1).length
        = min ([⟨1, 0⟩] : List Complex).length 1
      ∧ (∃ dropped : List FourierComponent,
          ((List.range ([⟨1, 0⟩] : List Complex).length).map
              (specComponent [⟨1, 0⟩])).Perm
            (compute_complex_dft [⟨1, 0⟩] 1 ++ dropped)
          ∧ ∀ c ∈ compute_complex_dft [⟨1, 0⟩] 1, ∀ d ∈ dropped,
              d.coef.magnitude ≤ c.coef.magnitude)
      ∧ List.Sorted (fun a b : FourierComponent => a.freq ≤ b.freq)
          (compute_complex_dft [⟨1, 0⟩] 1)) :=
  ⟨by simp, claim_C1_dft [⟨1, 0⟩] 1 (by simp)⟩

/-- C4: every frequency returned by `compute_complex_dft` on a signal of
length `n ≥ 1` lies in the half-open interval `(-n/2, n/2]`. -/
theorem claim_C4_frequency_folding (signal : List Complex) (m : ℕ)
    (c : FourierComponent) (h1 : 1 ≤ signal.length)
    (h2 : c ∈ compute_complex_dft signal m) :
    -((signal.length : ℝ) / 2) < (c.freq : ℝ)
    ∧ (c.freq : ℝ) ≤ (signal.length : ℝ) / 2 := by
  have hn : signal.length ≠ 0 := by omega
  unfold compute_complex_dft at h2
  rw [if_neg hn] at h2
  have h3 : c ∈ (((List.range signal.length).map (dftComponent signal)).mergeSort
      (fun a b => decide (b.coef.magnitude ≤ a.coef.magnitude))).take m :=
    (List.mergeSort_perm _ _).mem_iff.mp h2
  have h4 : c ∈ ((List.range signal.length).map (dftComponent signal)).mergeSort
      (fun a b => decide (b.coef.magnitude ≤ a.coef.magnitude)) :=
    (List.take_sublist m _).subset h3
  have h5 : c ∈ (List.range signal.length).map (dftComponent signal) :=
    (List.mergeSort_perm _ _).mem_iff.mp h4
  obtain ⟨k, hk, hkc⟩ := List.mem_map.mp h5
  rw [List.mem_range] at hk
  subst hkc
  have hfreq : (dftComponent signal k).freq
      = if k ≤ signal.length / 2 then (k : ℤ) else (k : ℤ) - (signal.length : ℤ) := rfl
  rw [hfreq]
  have hnR : (1 : ℝ) ≤ (signal.length : ℝ) := by exact_mod_cast h1
  by_cases hk2 : k ≤ signal.length / 2
  · rw [if_pos hk2]
    have h2k : 2 * k ≤ signal.length := by omega
    have h2kR : 2 * (k : ℝ) ≤ (signal.length : ℝ) := by exact_mod_cast h2k
    have hk0 : (0 : ℝ) ≤ (k : ℝ) := Nat.cast_nonneg k
    constructor
    · push_cast
      linarith
    · push_cast
      linarith
  · rw [if_neg hk2]
    have h2k : signal.length + 1 ≤ 2 * k := by omega
    have h2kR : (signal.length : ℝ) + 1 ≤ 2 * (k : ℝ) := by exact_mod_cast h2k
    have hkn : (k : ℝ) < (signal.length : ℝ) := by exact_mod_cast hk
    constructor
    · push_cast
      linarith
    · push_cast
      linarith

theorem dft_single :
    compute_complex_dft [⟨1, 0⟩] 1 = [dftComponent [⟨1, 0⟩] 0] := by
  unfold compute_complex_dft
  rw [if_neg (by simp)]
  simp [List.range_succ, List.mergeSort_singleton]

theorem toC_eval_fold (comps : List FourierComponent) (t : ℝ) :
    toC (comps.foldl (fun (sum : Complex) comp =>
        sum.add (comp.coef.rotate (2 * π * (comp.freq : ℝ) * t))) ⟨0, 0⟩)
      = evalC comps t := by
  rw [foldl_add_toC comps
    (fun comp => comp.coef.rotate (2 * π * (comp.freq : ℝ) * t)) ⟨0, 0⟩]
  rw [toC_zero, zero_add]
  unfold evalC
  refine congrArg List.sum (List.map_congr_left fun c _ => ?_)
  rw [toC_rotate]

theorem evaluate_eq_evalC (comps : List FourierComponent) (center : Vector2)
    (color : Color) (path : List Vector2) (t : ℝ) :
    PathFourier.evaluate ⟨comps, center, color, path⟩ t
      = ⟨center.x + (evalC comps t).re, center.y + (evalC comps t).im⟩ := by
  rw [← toC_eval_fold]
  rfl

theorem dft_full_perm (signal : List Complex) (h : signal.length ≠ 0) :
    (compute_complex_dft signal signal.length).Perm
      ((List.range signal.length).map (dftComponent signal)) := by
  unfold compute_complex_dft
  rw [if_neg h]
  have hlen : (((List.range signal.length).map (dftComponent signal)).mergeSort
      (fun a b => decide (b.coef.magnitude ≤ a.coef.magnitude))).length
      ≤ signal.length := by
    rw [List.length_mergeSort, List.length_map, List.length_range]
  rw [List.take_of_length_le hlen]
  exact (List.mergeSort_perm _ _).trans (List.mergeSort_perm _ _)

theorem exp_freq (n k j : ℕ) (hn : n ≠ 0) :
    Complex.exp ((2 * π * ((specFreq n k : ℝ)) * ((j : ℝ) / (n : ℝ)) : ℝ) * Complex.I)
      = Complex.exp ((2 * π * (k : ℝ) * ((j : ℝ) / (n : ℝ)) : ℝ) * Complex.I) := by
  unfold specFreq
  split
  · norm_cast
  · have hnR : (n : ℝ) ≠ 0 := Nat.cast_ne_zero.mpr hn
    have key : (2 * π * (((k : ℤ) - (n : ℤ) : ℤ) : ℝ) * ((j : ℝ) / (n : ℝ)) : ℝ)
        = (2 * π * (k : ℝ) * ((j : ℝ) / (n : ℝ))) + (((-(j : ℤ) : ℤ) : ℝ) * (2 * π)) := by
      push_cast
      field_simp
      ring
    rw [key]
    rw [Complex.ofReal_add, add_mul, Complex.exp_add]
    have h2 : ((((-(j : ℤ) : ℤ) : ℝ) * (2 * π) : ℝ) : ℂ) * Complex.I
        = ((-(j : ℤ) : ℤ) : ℂ) * (2 * (π : ℂ) * Complex.I) := by
      push_cast
      ring
    rw [h2, Complex.exp_int_mul_two_pi_mul_I, mul_one]

theorem dft_inversion_core (x : ℕ → ℂ) (n j : ℕ) (hn : n ≠ 0) (hj : j < n) :
    ∑ k ∈ Finset.range n,
      (∑ i ∈ Finset.range n,
          Complex.exp ((-2 * π * (k : ℝ) * (i : ℝ) / (n : ℝ) : ℝ) * Complex.I) * x i)
        * ((1 / (n : ℝ) : ℝ) : ℂ)
        * Complex.exp ((2 * π * (k : ℝ) * ((j : ℝ) / (n : ℝ)) : ℝ) * Complex.I)
      = x j := by
  have hnR : (n : ℝ) ≠ 0 := Nat.cast_ne_zero.mpr hn
  have hnC : (n : ℂ) ≠ 0 := Nat.cast_ne_zero.mpr hn
  set ζ : ℕ → ℂ := fun i =>
    Complex.exp (((((j : ℝ) - (i : ℝ)) / (n : ℝ) * (2 * π)) : ℝ) * Complex.I) with hζ
  have hterm : ∀ k ∈ Finset.range n,
      (∑ i ∈ Finset.range n,
          Complex.exp ((-2 * π * (k : ℝ) * (i : ℝ) / (n : ℝ) : ℝ) * Complex.I) * x i)
        * ((1 / (n : ℝ) : ℝ) : ℂ)
        * Complex.exp ((2 * π * (k : ℝ) * ((j : ℝ) / (n : ℝ)) : ℝ) * Complex.I)
      = ∑ i ∈ Finset.range n, ζ i ^ k * (x i * ((1 / (n : ℝ) : ℝ) : ℂ)) := by
    intro k hk
    rw [Finset.sum_mul, Finset.sum_mul]
    refine Finset.sum_congr rfl fun i hi => ?_
    have hexp : Complex.exp ((-2 * π * (k : ℝ) * (i : ℝ) / (n : ℝ) : ℝ) * Complex.I)
        * Complex.exp ((2 * π * (k : ℝ) * ((j : ℝ) / (n : ℝ)) : ℝ) * Complex.I)
        = ζ i ^ k := by
      simp only [hζ]
      rw [← Complex.exp_add, ← Complex.exp_nat_mul]
      congr 1
      push_cast
      field_simp
      ring
    rw [← hexp]
    ring
  rw [Finset.sum_congr rfl hterm, Finset.sum_comm]
  have hswap : ∀ i ∈ Finset.range n,
      ∑ k ∈ Finset.range n, ζ i ^ k * (x i * ((1 / (n : ℝ) : ℝ) : ℂ))
        = (∑ k ∈ Finset.range n, ζ i ^ k) * (x i * ((1 / (n : ℝ) : ℝ) : ℂ)) :=
    fun i _ => (Finset.sum_mul _ _ _).symm
  rw [Finset.sum_congr rfl hswap]
  have hgeom : ∀ i ∈ Finset.range n,
      (∑ k ∈ Finset.range n, ζ i ^ k) * (x i * ((1 / (n : ℝ) : ℝ) : ℂ))
        = if i = j then (n : ℂ) * (x i * ((1 / (n : ℝ) : ℝ) : ℂ)) else 0 := by
    intro i hi
    rw [Finset.mem_range] at hi
    by_cases hij : i = j
    · have hone : ζ i = 1 := by
        simp only [hζ, hij]
        norm_num
      rw [if_pos hij, hone]
      simp
    · rw [if_neg hij]
      have hzn : ζ i ^ n = 1 := by
        simp only [hζ]
        rw [← Complex.exp_nat_mul]
        have harg : (n : ℂ) * (((((j : ℝ) - (i : ℝ)) / (n : ℝ) * (2 * π)) : ℝ) * Complex.I)
            = (((j : ℤ) - (i : ℤ) : ℤ) : ℂ) * (2 * (π : ℂ) * Complex.I) := by
          push_cast
          field_simp
          ring
        rw [harg]
        exact Complex.exp_int_mul_two_pi_mul_I ((j : ℤ) - (i : ℤ))
      have hz1 : ζ i ≠ 1 := by
        simp only [hζ]
        intro hcontra
        rw [Complex.exp_eq_one_iff] at hcontra
        obtain ⟨m, hm⟩ := hcontra
        have hI : ((((j : ℝ) - (i : ℝ)) / (n : ℝ) * (2 * π) : ℝ) : ℂ)
            = (m : ℂ) * (2 * (π : ℂ)) := by
          refine mul_right_cancel₀ Complex.I_ne_zero ?_
          rw [hm]
          ring
        have hcastR : ((m : ℂ) * (2 * (π : ℂ))) = (((m : ℝ) * (2 * π) : ℝ) : ℂ) := by
          push_cast
          ring
        rw [hcastR] at hI
        have hR : ((j : ℝ) - (i : ℝ)) / (n : ℝ) * (2 * π) = (m : ℝ) * (2 * π) :=
          Complex.ofReal_inj.mp hI
        have h2π : (2 * π) ≠ 0 := by positivity
        have hdiv : ((j : ℝ) - (i : ℝ)) / (n : ℝ) = (m : ℝ) :=
          mul_right_cancel₀ h2π hR
        have hmn : (j : ℝ) - (i : ℝ) = (m : ℝ) * (n : ℝ) := by
          field_simp at hdiv
          linarith [hdiv]
        have hmnZ : (j : ℤ) - (i : ℤ) = m * (n : ℤ) := by exact_mod_cast hmn
        have hne : (j : ℤ) - (i : ℤ) ≠ 0 := by
          intro h0
          apply hij
          have : (i : ℤ) = (j : ℤ) := by omega
          exact_mod_cast this
        have hm0 : m ≠ 0 := by
          rintro rfl
          rw [zero_mul] at hmnZ
          exact hne hmnZ
        have habs : |(j : ℤ) - (i : ℤ)| < (n : ℤ) := by
          rw [abs_lt]
          omega
        have hge : (n : ℤ) ≤ |(j : ℤ) - (i : ℤ)| := by
          rw [hmnZ, abs_mul]
          have h1 : 1 ≤ |m| := Int.one_le_abs hm0
          have h2 : |(n : ℤ)| = (n : ℤ) := abs_of_nonneg (by omega)
          rw [h2]
          nlinarith [abs_nonneg m]
        omega
      rw [geom_sum_eq hz1, hzn]
      simp
  rw [Finset.sum_congr rfl hgeom]
  rw [Finset.sum_ite_eq' (Finset.range n) j
    (fun i => (n : ℂ) * (x i * ((1 / (n : ℝ) : ℝ) : ℂ)))]
  rw [if_pos (Finset.mem_range.mpr hj)]
  have hc : ((1 / (n : ℝ) : ℝ) : ℂ) = 1 / (n : ℂ) := by push_cast; ring
  rw [hc]
  field_simp

theorem evalC_all (signal : List Complex) (j : ℕ) (hj : j < signal.length) :
    evalC ((List.range signal.length).map (dftComponent signal))
      ((j : ℝ) / (signal.length : ℝ)) = toC (signal.getD j ⟨0, 0⟩) := by
  have hn : signal.length ≠ 0 := by omega
  unfold evalC
  rw [List.map_map, list_map_range_sum]
  have hstep : ∀ k ∈ Finset.range signal.length,
      ((fun c : FourierComponent =>
          toC c.coef * Complex.exp
            ((2 * π * (c.freq : ℝ) * ((j : ℝ) / (signal.length : ℝ)) : ℝ) * Complex.I))
        ∘ dftComponent signal) k
      = (∑ i ∈ Finset.range signal.length,
          Complex.exp
              ((-2 * π * (k : ℝ) * (i : ℝ) / (signal.length : ℝ) : ℝ) * Complex.I)
            * toC (signal.getD i ⟨0, 0⟩))
        * ((1 / (signal.length : ℝ) : ℝ) : ℂ)
        * Complex.exp
            ((2 * π * (k : ℝ) * ((j : ℝ) / (signal.length : ℝ)) : ℝ) * Complex.I) := by
    intro k hk
    simp only [Function.comp]
    rw [toC_dft_coef]
    have hfr : (dftComponent signal k).freq = specFreq signal.length k := rfl
    rw [hfr, exp_freq signal.length k j hn]
  rw [Finset.sum_congr rfl hstep]
  exact dft_inversion_core (fun i => toC (signal.getD i ⟨0, 0⟩)) signal.length j hn hj

/-- C2: the inverse-DFT identity: with `max_components = n` (no truncation),
evaluating the reconstruction at each sample's time fraction `j/n` returns
exactly the original signal value (translated by the center offset), over
idealized real arithmetic. -/
theorem claim_C2_inverse_dft (signal : List Complex) (center : Vector2) (color : Color)
    (path : List Vector2) (j : ℕ) (h : j < signal.length) :
    PathFourier.evaluate
        ⟨compute_complex_dft signal signal.length, center, color, path⟩
        ((j : ℝ) / (signal.length : ℝ))
      = ⟨center.x + (signal.getD j ⟨0, 0⟩).re,
         center.y + (signal.getD j ⟨0, 0⟩).im⟩ := by
  have hn : signal.length ≠ 0 := by omega
  rw [evaluate_eq_evalC]
  have heval : evalC (compute_complex_dft signal signal.length)
      ((j : ℝ) / (signal.length : ℝ))
      = evalC ((List.range signal.length).map (dftComponent signal))
          ((j : ℝ) / (signal.length : ℝ)) := by
    unfold evalC
    exact ((dft_full_perm signal hn).map _).sum_eq
  rw [heval, evalC_all signal j h]
  rfl

/-- C2 witness: the identity at the one-element signal `[1]`, sample 0,
center `(10, 20)`. -/
theorem claim_C2_inverse_dft_witness :
    0 < ([⟨1, 0⟩] : List Complex).length
    ∧ PathFourier.evaluate
        ⟨compute_complex_dft [⟨1, 0⟩] ([⟨1, 0⟩] : List Complex).length,
          ⟨10, 20⟩, ⟨0, 0, 0, 0⟩, []⟩
        (((0 : ℕ) : ℝ) / (([⟨1, 0⟩] : List Complex).length : ℝ))
      = ⟨(10 : ℝ) + (([⟨1, 0⟩] : List Complex).getD 0 ⟨0, 0⟩).re,
         (20 : ℝ) + (([⟨1, 0⟩] : List Complex).getD 0 ⟨0, 0⟩).im⟩ :=
  ⟨by simp, claim_C2_inverse_dft [⟨1, 0⟩] ⟨10, 20⟩ ⟨0, 0, 0, 0⟩ [] 0 (by simp)⟩

/-- C4 witness: the claim applied to the one-element signal `[1]`, whose sole
component has frequency `0 ∈ (-1/2, 1/2]`. -/
theorem claim_C4_frequency_folding_witness :
    1 ≤ ([⟨1, 0⟩] : List Complex).length
    ∧ dftComponent [⟨1, 0⟩] 0 ∈ compute_complex_dft [⟨1, 0⟩] 1
    ∧ (-((([⟨1, 0⟩] : List Complex).length : ℝ) / 2)
        < ((dftComponent [⟨1, 0⟩] 0).freq : ℝ)
      ∧ ((dftComponent [⟨1, 0⟩] 0).freq : ℝ)
        ≤ (([⟨1, 0⟩] : List Complex).length : ℝ) / 2) :=
  ⟨by simp, by rw [dft_single]; exact List.mem_singleton_self _,
    claim_C4_frequency_folding [⟨1, 0⟩] 1 _ (by simp)
      (by rw [dft_single]; exact List.mem_singleton_self _)⟩

end

end Fourier
